import Mathlib

/-!
Verification of the `ocrmd` scanned-book OCR pipeline core
(`src/ocrmd/split.py`, `src/ocrmd/ocr.py`, `src/ocrmd/structure.py`,
`src/ocrmd/config.py`).

Shallow embedding conventions:

* Python/numpy floating-point values are modelled as exact rationals `ℚ`.
  Because the library multiplication/division on `ℚ` is `@[irreducible]`,
  the embedding provides its own executable exact operations `fmul`, `fadd`,
  `fdiv` built on `Rat.divInt`; they denote the same rational numbers.
  Floating-point rounding error is abstracted away (decimal literals such as
  `1.4`, `0.3`, `0.6` become the exact rationals `7/5`, `3/10`, `3/5`).
* numpy NaN (arising only from `0/0` when a projection profile is all zero)
  is modelled by `Option ℚ` with `none` for NaN: every comparison with NaN
  is false, and NaN propagates through arithmetic and `median`.
* Python exceptions are modelled by `Except String`; a raising call site
  returns `Except.error`.
* `PIL.Image` is modelled by `Img`: a width, a height and a pixel function
  (grayscale intensity at row/column); `Image.crop` zero-pads outside the
  source and raises when the box is inverted, exactly as Pillow does.
* Python `list.sort(key=...)` is a stable sort; it is embedded as
  `List.insertionSort` (stable, and extensionally equal to any stable sort
  by the same key).
-/

-- Decidable equality for `Except`, so concrete runs can be checked by `decide`.
deriving instance DecidableEq for Except

/-! ## Python primitives -/

/-- Python whitespace characters stripped by `str.strip()` (ASCII subset;
the inputs of this pipeline are ASCII-range OCR text). -/
def isPySpace (c : Char) : Bool :=
  c == ' ' || c == '\t' || c == '\n' || c == '\r' || c == '\x0B' || c == '\x0C'

/-- Embedding of Python `str.strip()`: drop leading and trailing whitespace. -/
def pyStrip (s : String) : String :=
  String.mk (((s.data.dropWhile isPySpace).reverse.dropWhile isPySpace).reverse)

/-- Embedding of Python `text.replace("\n", "")`: since the pattern is the
single character `\n`, this removes every newline character. -/
def pyRemoveNewlines (s : String) : String :=
  String.mk (s.data.filter (fun c => !(c == '\n')))

/-- Embedding of Python `int(x)` on a float: truncation toward zero.
On a rational `q = num/den` (with `den > 0`) this is `Int.tdiv num den`. -/
def pyInt (q : ℚ) : ℤ := Int.tdiv q.num (q.den : ℤ)

/-- Exact multiplication on `ℚ`, executable in the kernel (the library `*`
on `ℚ` is `@[irreducible]`). `fmul a b = a * b` as rational numbers. -/
def fmul (a b : ℚ) : ℚ := Rat.divInt (a.num * b.num) ((a.den : ℤ) * (b.den : ℤ))

/-- Exact addition on `ℚ`, executable in the kernel. `fadd a b = a + b`. -/
def fadd (a b : ℚ) : ℚ :=
  Rat.divInt (a.num * (b.den : ℤ) + b.num * (a.den : ℤ)) ((a.den : ℤ) * (b.den : ℤ))

/-- Exact division on `ℚ`, executable in the kernel; division by zero gives
zero (that case never occurs on the guarded paths below). -/
def fdiv (a b : ℚ) : ℚ := Rat.divInt (a.num * (b.den : ℤ)) ((a.den : ℤ) * b.num)

/-- Sum of a list of rationals (`List.sum` on `ℚ` would use the irreducible
library addition). -/
def fsum (l : List ℚ) : ℚ := l.foldl fadd 0

/-- Arithmetic mean of a list of rationals, as computed by `np.mean` /
`statistics.mean`; `0` on the empty list (callers guard emptiness). -/
def fmean (l : List ℚ) : ℚ := fdiv (fsum l) (l.length : ℚ)

/-- Median of a list of rationals as computed by `np.median` and
`statistics.median`: sort ascending, take the middle element for odd
length, the mean of the two middle elements for even length. `0` on the
empty list (callers guard emptiness). -/
def medianQ (xs : List ℚ) : ℚ :=
  let s := List.insertionSort (· ≤ ·) xs
  let n := xs.length
  if n = 0 then 0
  else if n % 2 = 1 then s.getD (n / 2) 0
  else fdiv (fadd (s.getD (n / 2 - 1) 0) (s.getD (n / 2) 0)) 2

/-! ## Configuration model (`config.py`) -/

/-- The `page` field of a split rule: either a YAML integer or a YAML
string (such as `"2-300"`), mirroring `Union[int, str]`. -/
inductive PageSpec where
  | num (n : ℤ)
  | str (s : String)
deriving DecidableEq

/-- `SplitRule` from `config.py`: a page specifier and a split type
(`"single"`, `"double"` or `"quadruple"`). -/
structure SplitRule where
  page : PageSpec
  type : String
deriving DecidableEq

/-- `OcrConfig` from `config.py` (fields and defaults as in the dataclass;
`pdf_file` is kept as the path string). -/
structure OcrConfig where
  book_title : String
  pdf_file : String
  lang : String := "eng"
  dpi : ℕ := 400
  preprocess : String := "pil_gray"
  tess_psm : ℕ := 6
  embed_images : String := "auto"
  crop_pct : ℚ := mkRat 1 20
  low_conf : ℤ := 50
  min_chars : ℕ := 100
  split_strategy : List SplitRule := []

/-! ## Image model -/

/-- A raster image: width `w`, height `h` and grayscale pixel intensity
`pix row col` (only indices with `row < h`, `col < w` are meaningful). -/
structure Img where
  w : ℕ
  h : ℕ
  pix : ℕ → ℕ → ℕ

/-- Embedding of `PIL.Image.crop((l, t, r, b))`: Pillow raises `ValueError`
when the box is inverted, and fills pixels outside the source image with
zero. -/
def pilCrop (img : Img) (l t r b : ℤ) : Except String Img :=
  if r < l then .error "Coordinate right is less than left"
  else if b < t then .error "Coordinate lower is less than upper"
  else .ok
    { w := (r - l).toNat
      h := (b - t).toNat
      pix := fun row col =>
        let y := t + (row : ℤ)
        let x := l + (col : ℤ)
        if 0 ≤ y ∧ y < (img.h : ℤ) ∧ 0 ≤ x ∧ x < (img.w : ℤ) then
          img.pix y.toNat x.toNat
        else 0 }

/-! ## Split module (`split.py`) -/

/-- Leading decimal digits of a character list, as matched by `\d+`. -/
def leadingDigits (cs : List Char) : List Char := cs.takeWhile Char.isDigit

/-- Numeric value of a digit list. -/
def digitsToNat (cs : List Char) : ℕ :=
  cs.foldl (fun acc c => 10 * acc + (c.toNat - '0'.toNat)) 0

/-- Embedding of `re.match(r"(\d+)-(\d+)", spec)`: a run of digits, a dash
and a second run of digits, anchored at the start of the string (trailing
characters are permitted, as with `re.match`). -/
def matchRangeRegex (s : String) : Option (ℕ × ℕ) :=
  let d1 := leadingDigits s.data
  if d1.isEmpty then none
  else
    match s.data.drop d1.length with
    | '-' :: rest =>
      let d2 := leadingDigits rest
      if d2.isEmpty then none else some (digitsToNat d1, digitsToNat d2)
    | _ => none

/-- Embedding of Python `int(s)` on a string: optional sign followed by
digits (surrounding whitespace stripped); anything else raises
`ValueError`. -/
def pyParseInt (s : String) : Except String ℤ :=
  match (pyStrip s).data with
  | '-' :: rest =>
    if rest.isEmpty || !(rest.all Char.isDigit) then .error "invalid literal for int"
    else .ok (-(digitsToNat rest : ℤ))
  | '+' :: rest =>
    if rest.isEmpty || !(rest.all Char.isDigit) then .error "invalid literal for int"
    else .ok (digitsToNat rest : ℤ)
  | cs =>
    if cs.isEmpty || !(cs.all Char.isDigit) then .error "invalid literal for int"
    else .ok (digitsToNat cs : ℤ)

/-- `_parse_page_range` from `split.py`: expand a page specifier into the
list of zero-based page indices it covers. An integer `n` yields `[n-1]`;
a string matching `start-end` yields `[start-1, ..., end-1]`; any other
string is parsed as a single integer. -/
def _parse_page_range : PageSpec → Except String (List ℤ)
  | .num n => .ok [n - 1]
  | .str s =>
    match matchRangeRegex s with
    | some (a, b) => .ok ((List.range (b + 1 - a)).map (fun i => ((a + i : ℕ) : ℤ) - 1))
    | none =>
      match pyParseInt s with
      | .error msg => .error msg
      | .ok v => .ok [v - 1]

/-- One step of `_build_override_map`: enter every index of one rule into
the dictionary (`override[idx] = rule.type`), overwriting earlier
entries. -/
def buildStep (m : ℤ → Option String) (rule : SplitRule) : Except String (ℤ → Option String) :=
  match _parse_page_range rule.page with
  | .error msg => .error msg
  | .ok idxs => .ok (idxs.foldl (fun m2 i => fun j => if j = i then some rule.type else m2 j) m)

/-- `_build_override_map` from `split.py`: fold all rules, in configuration
order, into a page-index → split-type dictionary (modelled as a function;
`dict.get` with a default becomes `Option.getD`). -/
def _build_override_map (rules : List SplitRule) : Except String (ℤ → Option String) :=
  rules.foldlM buildStep (fun _ => none)

/-- The override entry for one page index, packaged decidably: the built
dictionary queried at `idx`. -/
def overrideLookup (rules : List SplitRule) (idx : ℤ) : Except String (Option String) :=
  (_build_override_map rules).map (fun m => m idx)

/-- Derived description of `_build_override_map`: because later rules
overwrite earlier dictionary entries, the entry for `idx` is the type of
the last rule (in configuration order) whose range contains `idx`. -/
def lastMatchingType (rules : List SplitRule) (idx : ℤ) : Option String :=
  rules.foldl
    (fun acc r =>
      match _parse_page_range r.page with
      | .ok l => if idx ∈ l then some r.type else acc
      | .error _ => acc)
    none

/-- Modelled from the spec: the override-resolution policy as worded in the
specification, "first-matching rule in configuration order wins". Stated
for comparison with the behaviour of `_build_override_map`. -/
def firstMatchingType (rules : List SplitRule) (idx : ℤ) : Option String :=
  rules.findSome? (fun r =>
    match _parse_page_range r.page with
    | .ok l => if idx ∈ l then some r.type else none
    | .error _ => none)

/-- Column-intensity projection profile of `_detect_split_type`:
`np.sum(arr, axis=0)`, the sum of the pixel values down each column. -/
def colProfile (img : Img) : List ℕ :=
  (List.range img.w).map (fun c => (List.range img.h).foldl (fun s r => s + img.pix r c) 0)

/-- Embedding of `np.max` (`ndarray.max()`), which raises on an empty
array: `none` models the raised `ValueError`. -/
def npMax (l : List ℕ) : Option ℕ :=
  match l with
  | [] => none
  | x :: xs => some (xs.foldl max x)

/-- numpy true division of a nonnegative integer profile entry by the
profile maximum. When the maximum is `0` every entry is `0` (entries are
bounded by the maximum — `npMax_is_ub` below), and `0/0` is NaN, modelled
as `none`; the `+inf` case of `p/0` with `p > 0` cannot occur. -/
def normDiv (p m : ℕ) : Option ℚ :=
  if m = 0 then none else some (Rat.divInt (p : ℤ) (m : ℤ))

/-- NaN-aware strict comparison: any comparison with NaN is false, as for
floats. -/
def fltB (a b : Option ℚ) : Bool :=
  match a, b with
  | some x, some y => decide (x < y)
  | _, _ => false

/-- NaN-aware median (`np.median`): NaN if any entry is NaN (on the only
path producing NaN below, every entry is NaN at once). -/
def fmedianOpt (xs : List (Option ℚ)) : Option ℚ :=
  if xs.any Option.isNone then none else some (medianQ (xs.filterMap id))

/-- Embedding of `cv2.GaussianBlur(profile.astype(np.float32), (51, 1), 0)`.
The 1-D numpy array of shape `(W,)` is converted to a `W × 1` OpenCV image
(one column). The kernel is 51 wide along the single-pixel x dimension
(OpenCV border interpolation returns index 0 for a length-1 dimension, so
every tap reads the same pixel and the normalized kernel sums to 1) and 1
tall along y; the blur is therefore the identity on the profile. -/
def gaussianBlur51x1 (xs : List (Option ℚ)) : List (Option ℚ) := xs

/-- Cluster step of `_detect_split_type`: append to the current group when
the gap to its last member is at most 5 columns, otherwise close the
group. -/
def clusterStep (p : List (List ℕ) × List ℕ) (idx : ℕ) : List (List ℕ) × List ℕ :=
  if (idx : ℤ) - (p.2.getLastD 0 : ℤ) ≤ 5 then (p.1, p.2 ++ [idx])
  else (p.1 ++ [p.2], [idx])

/-- Cluster the (ascending) minima indices into contiguous groups, as in
`_detect_split_type` lines 80-89. -/
def clusterGroups (minima : List ℕ) : List (List ℕ) :=
  match minima with
  | [] => []
  | m0 :: rest =>
    let p := rest.foldl clusterStep ([], [m0])
    p.1 ++ [p.2]

/-- `_detect_split_type` from `split.py`: grayscale column profile,
normalization by the maximum, (identity) Gaussian smoothing, thresholding
below `0.6 ×` the median, clustering of the below-threshold columns, and
the decision `≥ 2` groups ⇒ quadruple, `1` group ⇒ double, `0` groups ⇒
single. `profile.max()` raises on a zero-width image. -/
def _detect_split_type (img : Img) : Except String String :=
  let profile := colProfile img
  match npMax profile with
  | none => .error "zero-size array to reduction operation maximum"
  | some m =>
    let norm := profile.map (fun p => normDiv p m)
    let smoothed := gaussianBlur51x1 norm
    let threshold := (fmedianOpt smoothed).map (fun mq => fmul mq (mkRat 3 5))
    let minima := (List.range profile.length).filter (fun i => fltB (smoothed.getD i none) threshold)
    let splits := (clusterGroups minima).map (fun g => pyInt (fmean (g.map (fun x => (x : ℚ)))))
    .ok (if 2 ≤ splits.length then "quadruple" else if splits.length = 1 then "double" else "single")

/-- `_crop_margins` from `split.py`: crop `crop_pct` of the width from the
left and right edges and `crop_pct` of the height from the top and bottom
edges, with no validation of `crop_pct`. -/
def _crop_margins (img : Img) (crop_pct : ℚ) : Except String Img :=
  let dx := pyInt (fmul (img.w : ℚ) crop_pct)
  let dy := pyInt (fmul (img.h : ℚ) crop_pct)
  pilCrop img dx dy ((img.w : ℤ) - dx) ((img.h : ℤ) - dy)

/-- The geometric split of `split_pages` (lines 143-170) for one page,
given the already-decided split type and the already-cropped image:
`single` keeps the image, `double` bisects at the horizontal midpoint,
anything else quarters at both midpoints (reading order TL, TR, BL, BR). -/
def splitByType (split_type : String) (img : Img) : Except String (List Img) :=
  let w := img.w
  let h := img.h
  if split_type = "single" then .ok [img]
  else if split_type = "double" then
    match pilCrop img 0 0 ((w / 2 : ℕ) : ℤ) (h : ℤ), pilCrop img ((w / 2 : ℕ) : ℤ) 0 (w : ℤ) (h : ℤ) with
    | .ok left, .ok right => .ok [left, right]
    | .error msg, _ => .error msg
    | _, .error msg => .error msg
  else
    let mx := ((w / 2 : ℕ) : ℤ)
    let my := ((h / 2 : ℕ) : ℤ)
    match pilCrop img 0 0 mx my, pilCrop img mx 0 (w : ℤ) my,
        pilCrop img 0 my mx (h : ℤ), pilCrop img mx my (w : ℤ) (h : ℤ) with
    | .ok tl, .ok tr, .ok bl, .ok br => .ok [tl, tr, bl, br]
    | .error msg, _, _, _ => .error msg
    | _, .error msg, _, _ => .error msg
    | _, _, .error msg, _ => .error msg
    | _, _, _, .error msg => .error msg

/-- The split-type decision of `split_pages` line 137 for one page:
`override_map.get(idx, _detect_split_type(img))`. As in Python, the
heuristic detector runs (and can raise) before the dictionary lookup,
because it is the eagerly evaluated default argument of `dict.get`. -/
def pageSplitDecision (cfg : OcrConfig) (idx : ℤ) (img : Img) : Except String String :=
  match _build_override_map cfg.split_strategy with
  | .error msg => .error msg
  | .ok m =>
    match _detect_split_type img with
    | .error msg => .error msg
    | .ok d => .ok ((m idx).getD d)

/-- The per-page body of `split_pages` (lines 135-170) without file I/O:
decide the split type (override first, heuristic as fallback), crop the
margins, then split geometrically. The margin crop happens after the
detection and before the split. -/
def splitOnePage (cfg : OcrConfig) (idx : ℤ) (img : Img) : Except String (List Img) :=
  match _build_override_map cfg.split_strategy with
  | .error msg => .error msg
  | .ok m =>
    match _detect_split_type img with
    | .error msg => .error msg
    | .ok d =>
      let split_type := (m idx).getD d
      match _crop_margins img cfg.crop_pct with
      | .error msg => .error msg
      | .ok img2 => splitByType split_type img2

-- Sanity examples (concrete kernel evaluation of the embedding).
example : _parse_page_range (.str "2-4") = .ok [1, 2, 3] := by decide
example : _parse_page_range (.num 3) = .ok [2] := by decide
example : pyInt (fmul (10 : ℚ) (mkRat 1 2)) = 5 := by decide
example : medianQ [0, 1, 1, 1, 1, 1, 1, 1] = 1 := by decide

/-! ## OCR module (`ocr.py`) -/

/-- `OcrResult` from `ocr.py`. -/
structure OcrResult where
  text : String
  avg_conf : ℚ
  used_psm : ℕ
  num_chars : ℕ
deriving DecidableEq

/-- The external Tesseract engine, at the interface used by `_run_psm`:
`image_to_data` yields the confidence column (the sentinel string `"-1"`
is modelled as `none`), `image_to_string` yields the plain text; both may
raise (the image and language are fixed for a page, so both calls are
indexed by the page segmentation mode alone). -/
structure TessEngine where
  image_to_data : ℕ → Except String (List (Option ℤ))
  image_to_string : ℕ → Except String String

/-- `_run_psm` from `ocr.py`: run Tesseract for a single page segmentation
mode; average the confidences that are not the sentinel (`0.0` if none
remain), and count the characters of the plain text with newlines removed
and surrounding whitespace stripped. -/
def _run_psm (e : TessEngine) (psm : ℕ) : Except String OcrResult :=
  match e.image_to_data psm with
  | .error msg => .error msg
  | .ok confRaw =>
    let confs := confRaw.filterMap id
    let avg_conf : ℚ := if confs.isEmpty then 0 else fmean (confs.map (fun c => (c : ℚ)))
    match e.image_to_string psm with
    | .error msg => .error msg
    | .ok text => .ok ⟨text, avg_conf, psm, (pyStrip (pyRemoveNewlines text)).length⟩

/-- The dedup-preserving-order loop of `run_ocr` (lines 58-64). -/
def dedupFirst (l : List ℕ) : List ℕ :=
  l.foldl (fun acc p => if p ∈ acc then acc else acc ++ [p]) []

/-- The sort key order of `run_ocr` line 75: `(avg_conf, num_chars)`
lexicographically. -/
def ocrKeyLe (a b : OcrResult) : Prop :=
  a.avg_conf < b.avg_conf ∨ (a.avg_conf = b.avg_conf ∧ a.num_chars ≤ b.num_chars)

instance : DecidableRel ocrKeyLe := fun a b => by
  unfold ocrKeyLe; infer_instance

/-- The descending order used by `results.sort(key=..., reverse=True)`. -/
def ocrDesc (a b : OcrResult) : Prop := ocrKeyLe b a

instance : DecidableRel ocrDesc := fun a b => by
  unfold ocrDesc; infer_instance

/-- The list of per-mode results accumulated by `run_ocr` lines 65-71: one
entry per deduplicated mode whose `_run_psm` call did not raise. -/
def ocrCandidates (e : TessEngine) (cfg : OcrConfig) : List OcrResult :=
  (dedupFirst [cfg.tess_psm, 6, 3, 4]).filterMap (fun psm => (_run_psm e psm).toOption)

/-- `run_ocr` from `ocr.py`: try the deduplicated mode list, skip raising
modes, return a synthetic empty result when every mode failed, otherwise
stable-sort descending by `(avg_conf, num_chars)` and return the first
result. (The `headD` default is unreachable: the sorted list of a
non-empty list is non-empty.) -/
def run_ocr (e : TessEngine) (cfg : OcrConfig) : OcrResult :=
  let results := ocrCandidates e cfg
  if results.isEmpty then ⟨"", 0, cfg.tess_psm, 0⟩
  else (List.insertionSort ocrDesc results).headD ⟨"", 0, cfg.tess_psm, 0⟩

example : dedupFirst [6, 6, 3, 4] = [6, 3, 4] := by decide
example :
    _run_psm ⟨fun _ => .ok [some 90, none, some 70], fun _ => .ok " ab\n"⟩ 6 =
      .ok ⟨" ab\n", 80, 6, 2⟩ := by decide

/-! ## Structure module (`structure.py`) -/

/-- One word record of the Tesseract `image_to_data` dictionary used by
`_group_lines`: parallel arrays become one record per word; the numeric
columns are parsed with `int(...)` by the source, so they are integers
here, and the sentinel confidence `"-1"` is modelled as `none`. -/
structure Word where
  text : String
  left : ℤ
  top : ℤ
  width : ℤ
  height : ℤ
  conf : Option ℚ
  line_num : ℤ
deriving DecidableEq

/-- `LineInfo` from `structure.py`. -/
structure LineInfo where
  text : String
  left : ℤ
  top : ℤ
  width : ℤ
  height : ℤ
  conf : ℚ
deriving DecidableEq

/-- Append a word to the group of its line number, keeping the insertion
order of groups and of words within a group (a Python `dict` of lists). -/
def addToGroup (gs : List (ℤ × List Word)) (k : ℤ) (w : Word) : List (ℤ × List Word) :=
  match gs with
  | [] => [(k, [w])]
  | (k2, ws) :: rest => if k2 = k then (k2, ws ++ [w]) :: rest else (k2, ws) :: addToGroup rest k w

/-- The grouping loop of `_group_lines` lines 33-39: the `lines` dict,
keyed by the engine-reported line number, in first-occurrence order. -/
def buildGroups (words : List Word) : List (ℤ × List Word) :=
  words.foldl (fun gs w => addToGroup gs w.line_num w) []

/-- Minimum of a list of integers (`min(...)`; callers pass non-empty
lists). -/
def listMinI (l : List ℤ) : ℤ :=
  match l with
  | [] => 0
  | x :: xs => xs.foldl min x

/-- Maximum of a list of integers (`max(...)`; callers pass non-empty
lists). -/
def listMaxI (l : List ℤ) : ℤ :=
  match l with
  | [] => 0
  | x :: xs => xs.foldl max x

/-- The per-group body of `_group_lines` lines 42-61: concatenated trimmed
text, bounding-box left/top/width from the word boxes, height as the
truncated arithmetic mean of the word heights (the computed `bottoms` of
line 48 are never used by the source), and mean non-sentinel confidence
(`0.0` when every confidence is the sentinel). -/
def mkLineInfo (ws : List Word) : LineInfo :=
  let confs := ws.filterMap (fun w => w.conf)
  { text := pyStrip (String.intercalate " " (ws.map (fun w => w.text)))
    left := listMinI (ws.map (fun w => w.left))
    top := listMinI (ws.map (fun w => w.top))
    width := listMaxI (ws.map (fun w => w.left + w.width)) - listMinI (ws.map (fun w => w.left))
    height := pyInt (fmean (ws.map (fun w => (w.height : ℚ))))
    conf := if confs.isEmpty then 0 else fmean confs }

/-- Whether a word group is skipped by line 43-44 of `_group_lines`: every
word text strips to the empty string. -/
def allWhitespace (ws : List Word) : Bool :=
  ws.all (fun w => pyStrip w.text == "")

/-- `_group_lines` from `structure.py`: group the words by engine line
number (insertion order), drop groups whose text is entirely whitespace,
and build one `LineInfo` per remaining group. -/
def _group_lines (words : List Word) : List LineInfo :=
  (buildGroups words).filterMap (fun g => if allWhitespace g.2 then none else some (mkLineInfo g.2))

/-- The vertical order used to rank heading candidates
(`candidates.sort(key=lambda ln: ln.top)`). -/
def topLe (a b : LineInfo) : Prop := a.top ≤ b.top

instance : DecidableRel topLe := fun a b => by
  unfold topLe; infer_instance

instance : IsTotal LineInfo topLe := ⟨fun a b => Int.le_total a.top b.top⟩

instance : IsTrans LineInfo topLe := ⟨fun _ _ _ h1 h2 => Int.le_trans h1 h2⟩

/-- `median_h` of `detect_headings` line 79: the median of the retained
line heights. -/
def lineHeightsMedian (lines : List LineInfo) : ℚ :=
  medianQ (lines.map (fun ln => (ln.height : ℚ)))

/-- The heading candidates of `detect_headings` line 81: the lines whose
height is at least `1.4 ×` the median line height. -/
def headingCandidates (lines : List LineInfo) : List LineInfo :=
  lines.filter (fun ln => decide (fmul (mkRat 7 5) (lineHeightsMedian lines) ≤ (ln.height : ℚ)))

/-- The candidates sorted by vertical position, `detect_headings` line 83
(`candidates.sort(key=lambda ln: ln.top)`, a stable sort). -/
def sortedCandidates (lines : List LineInfo) : List LineInfo :=
  List.insertionSort topLe (headingCandidates lines)

/-- The per-line tag assignment of `detect_headings` lines 88-98: a line in
the candidate list gets `H1` when it is at candidate rank 0 (by
`candidates.index`, i.e. first value-equal occurrence) and within the top
30% of the page, `H2` at rank 0 otherwise, `H3` at any other rank; all
other lines are paragraphs. -/
def headingTag (sortedCands : List LineInfo) (page_h : ℤ) (ln : LineInfo) : String :=
  if ln ∈ sortedCands then
    if (ln.top : ℚ) < fmul (mkRat 3 10) (page_h : ℚ) ∧ List.indexOf ln sortedCands = 0 then "H1"
    else if List.indexOf ln sortedCands = 0 then "H2"
    else "H3"
  else "P"

/-- `detect_headings` from `structure.py`, with the engine output (word
records) and the page height as inputs: group words into lines, take as
heading candidates the lines at least `1.4 ×` the median line height, rank
candidates by vertical position, and tag every line in original order. -/
def detect_headings (words : List Word) (page_h : ℤ) : List (String × String) :=
  let lines := _group_lines words
  if lines.isEmpty then []
  else lines.map (fun ln => (headingTag (sortedCandidates lines) page_h ln, ln.text))

example :
    _group_lines
      [⟨"A", 0, 0, 5, 10, some 90, 1⟩, ⟨"B", 6, 2, 5, 11, none, 1⟩, ⟨" ", 0, 20, 5, 10, some 50, 2⟩] =
      [⟨"A B", 0, 0, 11, 10, 90⟩] := by decide

/-! ## General lemmas -/

/-- The head of a stably sorted non-empty list is a member of the original
list and is related (by the sort order) to every member. -/
theorem insertionSort_head_max {α : Type} (r : α → α → Prop) [DecidableRel r]
    [IsTotal α r] [IsTrans α r] (l : List α) (x : α) (t : List α)
    (h : List.insertionSort r l = x :: t) :
    x ∈ l ∧ ∀ y ∈ l, y = x ∨ r x y := by
  constructor
  · have : x ∈ List.insertionSort r l := by rw [h]; exact List.mem_cons_self x t
    exact (List.mem_insertionSort r).mp this
  · intro y hy
    have hy2 : y ∈ x :: t := by rw [← h]; exact (List.mem_insertionSort r).mpr hy
    rcases List.mem_cons.mp hy2 with h1 | h1
    · exact Or.inl h1
    · have hs : List.Sorted r (x :: t) := by
        rw [← h]; exact List.sorted_insertionSort r l
      exact Or.inr (List.rel_of_sorted_cons hs y h1)

theorem ocrKeyLe_refl (a : OcrResult) : ocrKeyLe a a :=
  Or.inr ⟨rfl, Nat.le_refl _⟩

theorem ocrKeyLe_total (a b : OcrResult) : ocrKeyLe a b ∨ ocrKeyLe b a := by
  unfold ocrKeyLe
  rcases lt_trichotomy a.avg_conf b.avg_conf with h | h | h
  · exact Or.inl (Or.inl h)
  · rcases Nat.le_total a.num_chars b.num_chars with h2 | h2
    · exact Or.inl (Or.inr ⟨h, h2⟩)
    · exact Or.inr (Or.inr ⟨h.symm, h2⟩)
  · exact Or.inr (Or.inl h)

theorem ocrKeyLe_trans (a b c : OcrResult) (h1 : ocrKeyLe a b) (h2 : ocrKeyLe b c) :
    ocrKeyLe a c := by
  unfold ocrKeyLe at *
  rcases h1 with h1 | ⟨h1, h1n⟩
  · rcases h2 with h2 | ⟨h2, _⟩
    · exact Or.inl (h1.trans h2)
    · exact Or.inl (h2 ▸ h1)
  · rcases h2 with h2 | ⟨h2, h2n⟩
    · exact Or.inl (h1 ▸ h2)
    · exact Or.inr ⟨h1.trans h2, h1n.trans h2n⟩

instance : IsTotal OcrResult ocrDesc :=
  ⟨fun a b => by unfold ocrDesc; exact (ocrKeyLe_total a b).symm⟩

instance : IsTrans OcrResult ocrDesc :=
  ⟨fun a b c h1 h2 => ocrKeyLe_trans c b a h2 h1⟩

/-! ## Claim C2 -/

/-- C2: for every run with a non-empty candidate list, `run_ocr` returns a
candidate that is maximal under the lexicographic `(avg_conf, num_chars)`
order: every other candidate has strictly lower confidence, or equal
confidence and at most as many characters, regardless of its position in
the list. -/
theorem run_ocr_selects_best (e : TessEngine) (cfg : OcrConfig)
    (h : ocrCandidates e cfg ≠ []) :
    run_ocr e cfg ∈ ocrCandidates e cfg ∧
      ∀ r ∈ ocrCandidates e cfg, ocrKeyLe r (run_ocr e cfg) := by
  unfold run_ocr
  have hne : ¬ (ocrCandidates e cfg).isEmpty := by
    simpa [List.isEmpty_iff] using h
  rw [if_neg hne]
  obtain ⟨x, t, hxt⟩ : ∃ x t, List.insertionSort ocrDesc (ocrCandidates e cfg) = x :: t := by
    cases hs : List.insertionSort ocrDesc (ocrCandidates e cfg) with
    | nil =>
      exfalso
      have hp := List.perm_insertionSort ocrDesc (ocrCandidates e cfg)
      rw [hs] at hp
      exact h hp.symm.eq_nil
    | cons x t => exact ⟨x, t, rfl⟩
  rw [hxt]
  simp only [List.headD_cons]
  obtain ⟨hmem, hmax⟩ := insertionSort_head_max ocrDesc (ocrCandidates e cfg) x t hxt
  refine ⟨hmem, fun r hr => ?_⟩
  rcases hmax r hr with h1 | h1
  · exact h1 ▸ ocrKeyLe_refl x
  · exact h1

/-- Engine used to instantiate C2: mode 6 reaches confidence 60, mode 3
confidence 80, mode 4 raises. -/
def engineC2 : TessEngine :=
  { image_to_data := fun psm =>
      if psm = 6 then .ok [some 60] else if psm = 3 then .ok [some 80] else .error "boom"
    image_to_string := fun psm => if psm = 6 then .ok "longer text here" else .ok "short" }

/-- A configuration with the dataclass defaults. -/
def cfgDefault : OcrConfig := { book_title := "book", pdf_file := "book.pdf" }

/-- C2 witness: with candidates of confidence 60 (earlier in the list, more
characters) and 80, the confidence-80 candidate is selected. -/
theorem run_ocr_selects_best_witness :
    ocrCandidates engineC2 cfgDefault ≠ [] ∧
      (run_ocr engineC2 cfgDefault ∈ ocrCandidates engineC2 cfgDefault ∧
        ∀ r ∈ ocrCandidates engineC2 cfgDefault, ocrKeyLe r (run_ocr engineC2 cfgDefault)) ∧
      (run_ocr engineC2 cfgDefault).avg_conf = 80 :=
  ⟨by decide, run_ocr_selects_best engineC2 cfgDefault (by decide), by decide⟩

/-! ## Claim C3 -/

/-- C3: when the engine raises for every candidate mode, `run_ocr` does not
raise but returns the synthetic result with empty text, confidence 0,
character count 0 and the configured base mode. -/
theorem run_ocr_all_fail_synthetic (e : TessEngine) (cfg : OcrConfig)
    (h : ∀ psm ∈ dedupFirst [cfg.tess_psm, 6, 3, 4], ∃ msg, _run_psm e psm = .error msg) :
    run_ocr e cfg = ⟨"", 0, cfg.tess_psm, 0⟩ := by
  have hcand : ocrCandidates e cfg = [] := by
    unfold ocrCandidates
    rw [List.filterMap_eq_nil_iff]
    intro psm hmem
    obtain ⟨msg, hmsg⟩ := h psm hmem
    rw [hmsg]
    rfl
  unfold run_ocr
  rw [hcand]
  rfl

/-- An engine whose every call raises. -/
def engineFail : TessEngine :=
  { image_to_data := fun _ => .error "tesseract crashed"
    image_to_string := fun _ => .error "tesseract crashed" }

/-- C3 witness: the always-raising engine produces the synthetic empty
result with the configured base mode 6. -/
theorem run_ocr_all_fail_synthetic_witness :
    (∀ psm ∈ dedupFirst [cfgDefault.tess_psm, 6, 3, 4],
        ∃ msg, _run_psm engineFail psm = .error msg) ∧
      run_ocr engineFail cfgDefault = ⟨"", 0, 6, 0⟩ :=
  ⟨fun _ _ => ⟨"tesseract crashed", rfl⟩,
    run_ocr_all_fail_synthetic engineFail cfgDefault (fun _ _ => ⟨"tesseract crashed", rfl⟩)⟩

/-! ## Claim C8 -/

/-- The character-count invariant actually maintained by the code:
`num_chars` counts the text with newlines removed and the result
stripped of surrounding whitespace. -/
def numCharsInv (r : OcrResult) : Prop :=
  r.num_chars = (pyStrip (pyRemoveNewlines r.text)).length

theorem _run_psm_numChars (e : TessEngine) (psm : ℕ) (r : OcrResult)
    (h : _run_psm e psm = .ok r) : numCharsInv r := by
  unfold _run_psm at h
  cases hd : e.image_to_data psm with
  | error msg => rw [hd] at h; exact absurd h (by simp)
  | ok confRaw =>
    rw [hd] at h
    cases hs : e.image_to_string psm with
    | error msg => rw [hs] at h; exact absurd h (by simp)
    | ok text =>
      rw [hs] at h
      simp only [Except.ok.injEq] at h
      rw [← h]
      rfl

theorem ocrCandidates_numChars (e : TessEngine) (cfg : OcrConfig) (r : OcrResult)
    (h : r ∈ ocrCandidates e cfg) : numCharsInv r := by
  unfold ocrCandidates at h
  obtain ⟨psm, _, hc⟩ := List.mem_filterMap.mp h
  apply _run_psm_numChars e psm r
  cases hrun : _run_psm e psm with
  | error msg => rw [hrun] at hc; exact absurd hc (by simp [Except.toOption])
  | ok r2 =>
    rw [hrun] at hc
    simp only [Except.toOption, Option.some.injEq] at hc
    rw [hc]

/-- C8 (amended): every `OcrResult` returned by `run_ocr` has `num_chars`
equal to the length of its text with newlines removed **and surrounding
whitespace stripped** (the synthetic all-fail result included). -/
theorem run_ocr_num_chars_strip (e : TessEngine) (cfg : OcrConfig) :
    (run_ocr e cfg).num_chars = (pyStrip (pyRemoveNewlines (run_ocr e cfg).text)).length := by
  have hsyn : numCharsInv ⟨"", 0, cfg.tess_psm, 0⟩ := by
    unfold numCharsInv
    rfl
  unfold run_ocr
  by_cases hne : (ocrCandidates e cfg).isEmpty
  · rw [if_pos hne]
    exact hsyn
  · rw [if_neg hne]
    cases hs : List.insertionSort ocrDesc (ocrCandidates e cfg) with
    | nil => exact hsyn
    | cons x t =>
      simp only [List.headD_cons]
      have hx : x ∈ ocrCandidates e cfg := (insertionSort_head_max ocrDesc _ x t hs).1
      exact ocrCandidates_numChars e cfg x hx

/-- Engine whose plain text has leading whitespace, separating the two
readings of the character count. -/
def engineC8 : TessEngine :=
  { image_to_data := fun _ => .ok [some 90]
    image_to_string := fun _ => .ok " a\n" }

/-- C8 counterexample: for the text `" a\n"` the engine stores character
count 1 (strip applied), while the length of the text with newlines
removed is 2 — the claim as stated (no strip) is false. -/
theorem run_ocr_num_chars_cex :
    (run_ocr engineC8 cfgDefault).num_chars = 1 ∧
      (pyRemoveNewlines (run_ocr engineC8 cfgDefault).text).length = 2 := by
  constructor
  · decide
  · decide

/-! ## Claim C1 -/

theorem updFold_apply (l : List ℤ) (t : String) (m : ℤ → Option String) (idx : ℤ) :
    (l.foldl (fun m2 i => fun j => if j = i then some t else m2 j) m) idx
      = if idx ∈ l then some t else m idx := by
  induction l generalizing m with
  | nil => simp
  | cons i is ih =>
    rw [List.foldl_cons, ih]
    by_cases hmem : idx ∈ is
    · simp [hmem, List.mem_cons]
    · by_cases heq : idx = i
      · simp [hmem, heq, List.mem_cons]
      · simp [hmem, heq, List.mem_cons]

/-- The dictionary built by `_build_override_map` (with arbitrary starting
dictionary), queried at one index, equals the fold that keeps the type of
the last matching rule. -/
theorem buildAux (rules : List SplitRule) :
    ∀ (m0 m : ℤ → Option String) (idx : ℤ),
      List.foldlM buildStep m0 rules = .ok m →
      m idx = rules.foldl
        (fun acc r =>
          match _parse_page_range r.page with
          | .ok l => if idx ∈ l then some r.type else acc
          | .error _ => acc) (m0 idx) := by
  induction rules with
  | nil =>
    intro m0 m idx h
    simp only [List.foldlM_nil] at h
    have : m0 = m := by
      cases h
      rfl
    rw [← this]
    rfl
  | cons r rs ih =>
    intro m0 m idx h
    rw [List.foldlM_cons] at h
    cases hp : _parse_page_range r.page with
    | error msg =>
      have hb : buildStep m0 r = .error msg := by unfold buildStep; rw [hp]
      rw [hb] at h
      exact absurd h (by simp [Except.instMonad, Except.bind])
    | ok l =>
      have hb : buildStep m0 r =
          .ok (l.foldl (fun m2 i => fun j => if j = i then some r.type else m2 j) m0) := by
        unfold buildStep; rw [hp]
      rw [hb] at h
      have h2 : List.foldlM buildStep
          (l.foldl (fun m2 i => fun j => if j = i then some r.type else m2 j) m0) rs = .ok m := h
      have h3 := ih _ m idx h2
      rw [h3, List.foldl_cons]
      congr 1
      simp only [hp]
      rw [updFold_apply]

/-- `_build_override_map`, queried at one index, returns the type of the
last rule in configuration order whose range contains the index (later
rules overwrite earlier dictionary entries). -/
theorem overrideMap_eq_lastMatching (rules : List SplitRule) (m : ℤ → Option String)
    (h : _build_override_map rules = .ok m) (idx : ℤ) :
    m idx = lastMatchingType rules idx :=
  buildAux rules (fun _ => none) m idx h

/-- C1 (amended): when a page index falls inside at least one configured
rule range, `split_pages` uses that override and never the heuristic
result (the conclusion does not depend on the detected value `d`); with
overlapping ranges the type of the **last** matching rule in configuration
order wins. -/
theorem pageSplitDecision_last_override (cfg : OcrConfig) (idx : ℤ) (img : Img)
    (t d : String)
    (hok : (_build_override_map cfg.split_strategy).isOk = true)
    (hl : lastMatchingType cfg.split_strategy idx = some t)
    (hd : _detect_split_type img = .ok d) :
    pageSplitDecision cfg idx img = .ok t := by
  cases hb : _build_override_map cfg.split_strategy with
  | error msg => rw [hb] at hok; exact absurd hok (by simp [Except.isOk, Except.toBool])
  | ok m =>
    have hm := overrideMap_eq_lastMatching cfg.split_strategy m hb idx
    unfold pageSplitDecision
    rw [hb, hd]
    show Except.ok ((m idx).getD d) = .ok t
    rw [hm, hl]
    rfl

/-- Two overlapping singleton rules for page 1: first `"double"`, then
`"single"`. -/
def cfgC1 : OcrConfig :=
  { book_title := "book", pdf_file := "book.pdf"
    split_strategy := [⟨.num 1, "double"⟩, ⟨.num 1, "single"⟩] }

/-- A plain 1×1 image (heuristic detection yields `"single"` on it). -/
def imgOne : Img := ⟨1, 1, fun _ _ => 5⟩

/-- C1 counterexample: with two rules covering page index 0, the
first-matching rule says `"double"`, but the pipeline decision is
`"single"` — the type of the last matching rule, so first-match-wins is
false. -/
theorem pageSplitDecision_first_match_cex :
    firstMatchingType cfgC1.split_strategy 0 = some "double" ∧
      pageSplitDecision cfgC1 0 imgOne = .ok "single" := by
  constructor
  · decide
  · decide

/-- C1 witness: the amended theorem applied to the overlapping-rule
configuration. -/
theorem pageSplitDecision_last_override_witness :
    (_build_override_map cfgC1.split_strategy).isOk = true ∧
      lastMatchingType cfgC1.split_strategy 0 = some "single" ∧
      _detect_split_type imgOne = .ok "single" ∧
      pageSplitDecision cfgC1 0 imgOne = .ok "single" :=
  ⟨by decide, by decide, by decide,
    pageSplitDecision_last_override cfgC1 0 imgOne "single" "single" (by decide) (by decide)
      (by decide)⟩

/-! ## Claim C6 -/

/-- C6 (amended): `_crop_margins` performs no clamping. With
`dx = int(w·pct)` and `dy = int(h·pct)`, the crop raises when the box is
inverted (`w - dx < dx`, as for `pct` appreciably above `0.5`, checked
width first as in Pillow) and otherwise returns an image of exactly
`(w - 2·dx) × (h - 2·dy)` pixels — zero-area when `pct = 0.5`, larger than
the source (zero-padded) when `pct < 0`. -/
theorem _crop_margins_dims (img : Img) (pct : ℚ) :
    (_crop_margins img pct).map (fun i => (i.w, i.h)) =
      (let dx := pyInt (fmul (img.w : ℚ) pct)
       let dy := pyInt (fmul (img.h : ℚ) pct)
       if (img.w : ℤ) - dx < dx then .error "Coordinate right is less than left"
       else if (img.h : ℤ) - dy < dy then .error "Coordinate lower is less than upper"
       else .ok (((img.w : ℤ) - 2 * dx).toNat, ((img.h : ℤ) - 2 * dy).toNat)) := by
  unfold _crop_margins pilCrop
  set dx := pyInt (fmul (img.w : ℚ) pct) with hdx
  set dy := pyInt (fmul (img.h : ℚ) pct) with hdy
  by_cases h1 : (img.w : ℤ) - dx < dx
  · rw [if_pos h1, if_pos h1]
    rfl
  · rw [if_neg h1, if_neg h1]
    by_cases h2 : (img.h : ℤ) - dy < dy
    · rw [if_pos h2, if_pos h2]
      rfl
    · rw [if_neg h2, if_neg h2]
      simp only [Except.map]
      have e1 : (img.w : ℤ) - dx - dx = (img.w : ℤ) - 2 * dx := by ring
      have e2 : (img.h : ℤ) - dy - dy = (img.h : ℤ) - 2 * dy := by ring
      rw [e1, e2]

/-- A 10×10 image. -/
def imgTen : Img := ⟨10, 10, fun _ _ => 7⟩

/-- C6 counterexample: no clamping happens. `crop_pct = 0.5` yields a
zero-area 0×0 crop, `crop_pct = 0.6` raises inside `Image.crop`, and
`crop_pct = -0.1` yields an enlarged 12×12 zero-padded image — never the
claimed no-op crop of the original 10×10 size. -/
theorem _crop_margins_no_clamp_cex :
    (_crop_margins imgTen (mkRat 1 2)).map (fun i => (i.w, i.h)) = .ok (0, 0) ∧
      (_crop_margins imgTen (mkRat 3 5)).map (fun i => (i.w, i.h)) =
        .error "Coordinate right is less than left" ∧
      (_crop_margins imgTen (-(mkRat 1 10))).map (fun i => (i.w, i.h)) = .ok (12, 12) := by
  refine ⟨by decide, by decide, by decide⟩

/-! ## Claim C5 -/

theorem foldl_max_init_le (xs : List ℕ) : ∀ a : ℕ, a ≤ xs.foldl max a := by
  induction xs with
  | nil => intro a; simp
  | cons x xs ih =>
    intro a
    rw [List.foldl_cons]
    exact Nat.le_trans (Nat.le_max_left a x) (ih (max a x))

theorem mem_le_foldl_max (xs : List ℕ) : ∀ (a x : ℕ), x ∈ xs → x ≤ xs.foldl max a := by
  induction xs with
  | nil => intro a x hx; exact absurd hx (List.not_mem_nil x)
  | cons y ys ih =>
    intro a x hx
    rw [List.foldl_cons]
    rcases List.mem_cons.mp hx with h | h
    · rw [h]
      exact Nat.le_trans (Nat.le_max_right a y) (foldl_max_init_le ys (max a y))
    · exact ih (max a y) x h

theorem npMax_is_ub (l : List ℕ) (m : ℕ) (h : npMax l = some m) : ∀ x ∈ l, x ≤ m := by
  cases l with
  | nil => exact absurd h (by simp [npMax])
  | cons y ys =>
    intro x hx
    have hm : m = ys.foldl max y := by
      unfold npMax at h
      exact (Option.some.injEq _ _ ▸ h.symm : _)
    rw [hm]
    rcases List.mem_cons.mp hx with h2 | h2
    · rw [h2]; exact foldl_max_init_le ys y
    · exact mem_le_foldl_max ys y x h2

theorem fltB_none_right (a : Option ℚ) : fltB a none = false := by
  cases a <;> rfl

/-- C5 (amended): for every image with at least one column, the heuristic
layout detector does not raise, and when the column profile has maximum
value 0 (all-black page: numpy divides 0/0 to NaN, all NaN comparisons are
false) the detector reports `"single"`. On a zero-width image the numpy
reduction `profile.max()` raises, so at-least-one-column is necessary. -/
theorem _detect_split_type_total_and_zero (img : Img) (hw : 0 < img.w) :
    (∃ s, _detect_split_type img = .ok s) ∧
      (npMax (colProfile img) = some 0 → _detect_split_type img = .ok "single") := by
  have hlen : (colProfile img).length = img.w := by
    unfold colProfile
    rw [List.length_map, List.length_range]
  have hne : colProfile img ≠ [] := by
    intro hnil
    rw [hnil] at hlen
    simp at hlen
    omega
  obtain ⟨p0, ps, hp⟩ : ∃ p0 ps, colProfile img = p0 :: ps := by
    cases hc : colProfile img with
    | nil => exact absurd hc hne
    | cons p0 ps => exact ⟨p0, ps, rfl⟩
  have hmax : npMax (colProfile img) = some (ps.foldl max p0) := by
    rw [hp]; rfl
  constructor
  · unfold _detect_split_type
    dsimp only
    rw [hmax]
    exact ⟨_, rfl⟩
  · intro h0
    have hm0 : ps.foldl max p0 = 0 := by
      rw [hmax] at h0
      exact Option.some.inj h0
    unfold _detect_split_type
    dsimp only
    rw [hmax, hm0]
    dsimp only
    have hnorm_none : ∀ q ∈ (colProfile img).map (fun p => normDiv p 0), q = none := by
      intro q hq
      obtain ⟨p, _, hpq⟩ := List.mem_map.mp hq
      rw [← hpq]
      unfold normDiv
      rw [if_pos rfl]
    have hmed : fmedianOpt (gaussianBlur51x1 ((colProfile img).map (fun p => normDiv p 0)))
        = none := by
      unfold gaussianBlur51x1 fmedianOpt
      rw [if_pos]
      rw [List.any_eq_true]
      refine ⟨normDiv p0 0, ?_, ?_⟩
      · rw [hp]
        exact List.mem_map_of_mem _ (List.mem_cons_self p0 ps)
      · have : normDiv p0 0 = none := by unfold normDiv; rw [if_pos rfl]
        rw [this]
        rfl
    rw [hmed]
    have hfil : ∀ (l : List (Option ℚ)) (n : ℕ),
        (List.range n).filter
          (fun i => fltB (l.getD i none) (Option.map (fun mq => fmul mq (mkRat 3 5)) none)) = [] := by
      intro l n
      rw [List.filter_eq_nil_iff]
      intro i _
      have hmn : Option.map (fun mq => fmul mq (mkRat 3 5)) none = (none : Option ℚ) := rfl
      rw [hmn, fltB_none_right]
      simp
    rw [hfil]
    rfl

/-- The 0×0 image (`PIL` permits zero-sized images; `np.array` of one is an
empty array). -/
def imgEmpty : Img := ⟨0, 0, fun _ _ => 0⟩

/-- C5 counterexample: on a zero-width image the profile is empty and
`profile.max()` raises `ValueError`, so layout detection does **not**
never-raise on every input image. -/
theorem _detect_split_type_raises_cex :
    _detect_split_type imgEmpty = .error "zero-size array to reduction operation maximum" := by
  decide

/-- A 2×1 all-black image: every column sum is 0. -/
def imgZero : Img := ⟨2, 1, fun _ _ => 0⟩

/-- C5 witness: the all-black 2×1 image has profile maximum 0 and is
reported `"single"` without raising. -/
theorem _detect_split_type_total_and_zero_witness :
    0 < imgZero.w ∧ npMax (colProfile imgZero) = some 0 ∧
      _detect_split_type imgZero = .ok "single" :=
  ⟨by decide, by decide,
    (_detect_split_type_total_and_zero imgZero (by decide)).2 (by decide)⟩

/-! ## Claim C4 -/

/-- C4 (amended): the split-type decision of `split_pages` is made on the
**uncropped** image (when no override applies it equals
`_detect_split_type img`); the margin crop is applied after the decision
and before the geometric split, so only the split operates on the cropped
image. -/
theorem splitOnePage_crop_after_detect (cfg : OcrConfig) (idx : ℤ) (img : Img) (d : String)
    (hov : overrideLookup cfg.split_strategy idx = .ok none)
    (hd : _detect_split_type img = .ok d) :
    splitOnePage cfg idx img = Except.bind (_crop_margins img cfg.crop_pct) (splitByType d) := by
  cases hb : _build_override_map cfg.split_strategy with
  | error msg =>
    unfold overrideLookup at hov
    rw [hb] at hov
    exact absurd hov (by simp [Except.map])
  | ok m =>
    have hmi : m idx = none := by
      unfold overrideLookup at hov
      rw [hb] at hov
      simpa [Except.map] using hov
    unfold splitOnePage
    rw [hb, hd]
    show (match _crop_margins img cfg.crop_pct with
      | .error msg => .error msg
      | .ok img2 => splitByType ((m idx).getD d) img2) =
      Except.bind (_crop_margins img cfg.crop_pct) (splitByType d)
    rw [hmi]
    cases hc : _crop_margins img cfg.crop_pct with
    | error msg => rfl
    | ok img2 => rfl

/-- An 8×1 image with a single dark column at index 0 (inside the margin
that a 25% crop removes). -/
def imgEight : Img := ⟨8, 1, fun _ c => if c = 0 then 0 else 255⟩

/-- A configuration with no overrides and a 25% margin crop. -/
def cfgC4 : OcrConfig := { book_title := "book", pdf_file := "book.pdf", crop_pct := mkRat 1 4 }

/-- C4 counterexample: on the 8×1 image the uncropped profile detects the
dark column (`"double"`, so the pipeline emits 2 pages), while detection
on the cropped image — what the claim asserts happens — would report
`"single"`. The projection profile is therefore computed before the crop,
not after. -/
theorem splitOnePage_detect_uncropped_cex :
    (splitOnePage cfgC4 0 imgEight).map List.length = .ok 2 ∧
      Except.bind (_crop_margins imgEight cfgC4.crop_pct) _detect_split_type = .ok "single" ∧
      _detect_split_type imgEight = .ok "double" := by
  refine ⟨by decide, by decide, by decide⟩

/-- C4 witness: the amended theorem applied to the no-override
configuration and the 8×1 image. -/
theorem splitOnePage_crop_after_detect_witness :
    overrideLookup cfgC4.split_strategy 0 = .ok none ∧
      _detect_split_type imgEight = .ok "double" ∧
      splitOnePage cfgC4 0 imgEight =
        Except.bind (_crop_margins imgEight cfgC4.crop_pct) (splitByType "double") :=
  ⟨by decide, by decide,
    splitOnePage_crop_after_detect cfgC4 0 imgEight "double" (by decide) (by decide)⟩

/-! ## Claim C10 -/

/-- Association lookup in the grouping dictionary. -/
def lookupG (gs : List (ℤ × List Word)) (k : ℤ) : Option (List Word) :=
  match gs with
  | [] => none
  | (k2, g) :: rest => if k2 = k then some g else lookupG rest k

theorem lookupG_addToGroup (k : ℤ) (w : Word) :
    ∀ (gs : List (ℤ × List Word)) (k2 : ℤ),
      lookupG (addToGroup gs k w) k2 =
        if k2 = k then some ((lookupG gs k).getD [] ++ [w]) else lookupG gs k2 := by
  intro gs
  induction gs with
  | nil =>
    intro k2
    show (if k = k2 then some [w] else none) = _
    by_cases h : k2 = k
    · rw [if_pos h.symm, if_pos h]
      rfl
    · rw [if_neg (fun hc => h hc.symm), if_neg h]
      rfl
  | cons hd rest ih =>
    intro k2
    obtain ⟨k3, g3⟩ := hd
    show lookupG (if k3 = k then (k3, g3 ++ [w]) :: rest else (k3, g3) :: addToGroup rest k w) k2 = _
    rw [show lookupG ((k3, g3) :: rest) k = if k3 = k then some g3 else lookupG rest k from rfl]
    rw [show lookupG ((k3, g3) :: rest) k2 = if k3 = k2 then some g3 else lookupG rest k2 from rfl]
    by_cases h3 : k3 = k
    · rw [if_pos h3, if_pos h3]
      show (if k3 = k2 then some (g3 ++ [w]) else lookupG rest k2) = _
      by_cases h : k2 = k
      · have e : k3 = k2 := h3.trans h.symm
        rw [if_pos e, if_pos h]
        rfl
      · have e : ¬ k3 = k2 := fun hc => h (hc.symm.trans h3)
        rw [if_neg e, if_neg h, if_neg e]
    · rw [if_neg h3, if_neg h3]
      show (if k3 = k2 then some g3 else lookupG (addToGroup rest k w) k2) = _
      by_cases h2 : k3 = k2
      · rw [if_pos h2]
        have e : ¬ k2 = k := fun hc => h3 (h2.trans hc)
        rw [if_neg e, if_pos h2]
      · rw [if_neg h2, ih k2, if_neg h2]

theorem keys_addToGroup (k : ℤ) (w : Word) :
    ∀ gs : List (ℤ × List Word),
      (addToGroup gs k w).map Prod.fst =
        if k ∈ gs.map Prod.fst then gs.map Prod.fst else gs.map Prod.fst ++ [k] := by
  intro gs
  induction gs with
  | nil => simp [addToGroup]
  | cons hd rest ih =>
    obtain ⟨k3, g3⟩ := hd
    show (if k3 = k then (k3, g3 ++ [w]) :: rest else (k3, g3) :: addToGroup rest k w).map Prod.fst = _
    by_cases h3 : k3 = k
    · rw [if_pos h3]
      have hk : k ∈ ((k3, g3) :: rest).map Prod.fst := by
        rw [List.map_cons]
        exact List.mem_cons.mpr (Or.inl h3.symm)
      rw [if_pos hk]
      rfl
    · rw [if_neg h3, List.map_cons, ih, List.map_cons]
      by_cases hk : k ∈ rest.map Prod.fst
      · have hk2 : k ∈ k3 :: rest.map Prod.fst := List.mem_cons.mpr (Or.inr hk)
        rw [if_pos hk, if_pos hk2]
      · have hk2 : k ∉ k3 :: rest.map Prod.fst := by
          rw [List.mem_cons]
          rintro (h | h)
          · exact h3 h.symm
          · exact hk h
        rw [if_neg hk, if_neg hk2]
        rfl

/-- The invariant tying the grouping dictionary to the processed words:
keys are distinct, and the entry for `k` is exactly the sublist of
processed words whose line number is `k` (absent when there is none). -/
def GroupsConsistent (processed : List Word) (gs : List (ℤ × List Word)) : Prop :=
  (gs.map Prod.fst).Nodup ∧
  ∀ k : ℤ, lookupG gs k =
    (if processed.filter (fun w => w.line_num = k) = [] then none
     else some (processed.filter (fun w => w.line_num = k)))

theorem groupsConsistent_step (processed : List Word) (gs : List (ℤ × List Word)) (w : Word)
    (h : GroupsConsistent processed gs) :
    GroupsConsistent (processed ++ [w]) (addToGroup gs w.line_num w) := by
  obtain ⟨hnd, hlk⟩ := h
  constructor
  · rw [keys_addToGroup]
    by_cases hk : w.line_num ∈ gs.map Prod.fst
    · rw [if_pos hk]
      exact hnd
    · rw [if_neg hk]
      simp [List.nodup_append, hnd, hk]
  · intro k
    rw [lookupG_addToGroup]
    have hfil : ∀ k2 : ℤ, (processed ++ [w]).filter (fun x => decide (x.line_num = k2)) =
        processed.filter (fun x => decide (x.line_num = k2)) ++
          (if w.line_num = k2 then [w] else []) := by
      intro k2
      rw [List.filter_append]
      congr 1
      by_cases hw : w.line_num = k2 <;> simp [hw]
    by_cases hwk : k = w.line_num
    · rw [hwk, if_pos rfl, hlk w.line_num, hfil w.line_num, if_pos rfl]
      by_cases hemp : processed.filter (fun x => decide (x.line_num = w.line_num)) = []
      · rw [if_pos hemp, hemp]
        have h2 : ([] : List Word) ++ [w] ≠ [] := by simp
        rw [if_neg h2]
        rfl
      · rw [if_neg hemp]
        have h2 : processed.filter (fun x => decide (x.line_num = w.line_num)) ++ [w] ≠ [] := by
          simp
        rw [if_neg h2]
        rfl
    · rw [if_neg hwk, hlk k, hfil k]
      have h2 : (if w.line_num = k then [w] else []) = [] := if_neg (fun hc => hwk hc.symm)
      rw [h2, List.append_nil]

theorem buildGroups_consistent_aux :
    ∀ (ws : List Word) (processed : List Word) (gs : List (ℤ × List Word)),
      GroupsConsistent processed gs →
      GroupsConsistent (processed ++ ws) (ws.foldl (fun gs w => addToGroup gs w.line_num w) gs) := by
  intro ws
  induction ws with
  | nil => intro processed gs h; simpa using h
  | cons w ws ih =>
    intro processed gs h
    rw [List.foldl_cons]
    have h3 := ih (processed ++ [w]) _ (groupsConsistent_step processed gs w h)
    simpa using h3

theorem buildGroups_consistent (words : List Word) :
    GroupsConsistent words (buildGroups words) := by
  have h0 : GroupsConsistent [] [] := by
    constructor
    · simp
    · intro k
      simp [lookupG]
  simpa using buildGroups_consistent_aux words [] [] h0

theorem lookupG_of_mem_nodup :
    ∀ gs : List (ℤ × List Word), (gs.map Prod.fst).Nodup →
      ∀ (k : ℤ) (g : List Word), (k, g) ∈ gs → lookupG gs k = some g := by
  intro gs
  induction gs with
  | nil => intro _ k g hmem; exact absurd hmem (List.not_mem_nil _)
  | cons hd rest ih =>
    intro hnd k g hmem
    obtain ⟨k3, g3⟩ := hd
    rw [List.map_cons] at hnd
    have hnd2 := List.nodup_cons.mp hnd
    rcases List.mem_cons.mp hmem with he | hm
    · injection he with e1 e2
      show (if k3 = k then some g3 else lookupG rest k) = some g
      rw [if_pos e1.symm, e2]
    · have hkne : k3 ≠ k := by
        intro hc
        apply hnd2.1
        have := List.mem_map_of_mem Prod.fst hm
        rw [← hc] at this
        exact this
      show (if k3 = k then some g3 else lookupG rest k) = some g
      rw [if_neg hkne]
      exact ih hnd2.2 k g hm

theorem buildGroups_entry_eq_filter (words : List Word) (k : ℤ) (g : List Word)
    (hmem : (k, g) ∈ buildGroups words) :
    g = words.filter (fun w => w.line_num = k) := by
  obtain ⟨hnd, hlk⟩ := buildGroups_consistent words
  have h1 := lookupG_of_mem_nodup (buildGroups words) hnd k g hmem
  rw [hlk k] at h1
  by_cases hemp : words.filter (fun w => decide (w.line_num = k)) = []
  · rw [if_pos hemp] at h1
    exact absurd h1 (by simp)
  · rw [if_neg hemp] at h1
    exact (Option.some.inj h1).symm

theorem keys_buildGroups_aux :
    ∀ (ws : List Word) (gs : List (ℤ × List Word)),
      ((ws.foldl (fun gs w => addToGroup gs w.line_num w) gs).map Prod.fst) =
        (ws.map (fun w => w.line_num)).foldl
          (fun acc k => if k ∈ acc then acc else acc ++ [k]) (gs.map Prod.fst) := by
  intro ws
  induction ws with
  | nil => intro gs; rfl
  | cons w ws ih =>
    intro gs
    rw [List.foldl_cons, List.map_cons, List.foldl_cons, ih, keys_addToGroup]

/-- C10 (amended): `_group_lines` produces, for every line number `k` in
first-occurrence order, the `LineInfo` of the group of **all** words whose
engine-reported line number is `k` (in word order) — text space-joined and
trimmed, left/top/width from the union of the word boxes, `height` the
truncated arithmetic mean of the word heights (not the union box height:
the computed `bottoms` are unused), confidence the mean of the
non-sentinel word confidences (0 if none) — and drops exactly the groups
whose every word strips to whitespace. -/
theorem _group_lines_spec (words : List Word) :
    (buildGroups words).map Prod.fst =
        (words.map (fun w => w.line_num)).foldl
          (fun acc k => if k ∈ acc then acc else acc ++ [k]) [] ∧
      _group_lines words =
        ((buildGroups words).map Prod.fst).filterMap (fun k =>
          if allWhitespace (words.filter (fun w => w.line_num = k)) then none
          else some (mkLineInfo (words.filter (fun w => w.line_num = k)))) := by
  constructor
  · have h := keys_buildGroups_aux words []
    simpa [buildGroups] using h
  · unfold _group_lines
    rw [List.filterMap_map]
    apply List.filterMap_congr
    intro g hg
    obtain ⟨k2, g2⟩ := g
    have hfe := buildGroups_entry_eq_filter words k2 g2 hg
    show (if allWhitespace g2 then none else some (mkLineInfo g2)) = _
    rw [hfe]
    simp only [Function.comp_apply]

/-- Two words on one engine line whose boxes are vertically offset. -/
def wordsC10 : List Word :=
  [⟨"A", 0, 0, 5, 10, some 90, 1⟩, ⟨"B", 6, 10, 5, 10, some 90, 1⟩]

/-- C10 counterexample: the produced `LineInfo` has `height = 10`, the mean
of the word heights, while the union of the word boxes spans from top 0 to
bottom 20 — the claimed union-box height (20) is not what the code
stores. -/
theorem _group_lines_height_cex :
    (_group_lines wordsC10).map (fun li => li.height) = [10] ∧
      listMaxI (wordsC10.map (fun w => w.top + w.height)) -
        listMinI (wordsC10.map (fun w => w.top)) = 20 := by
  refine ⟨by decide, by decide⟩

/-! ## Claims C7 and C9 -/

theorem indexOf_eq_zero_iff_head (l : List LineInfo) (a : LineInfo) (h : a ∈ l) :
    List.indexOf a l = 0 ↔ l.head? = some a := by
  cases l with
  | nil => exact absurd h (List.not_mem_nil a)
  | cons x xs =>
    by_cases hx : x = a
    · constructor
      · intro _
        rw [hx]
        rfl
      · intro _
        rw [List.indexOf_cons]
        have : (x == a) = true := beq_iff_eq.mpr hx
        rw [this]
        rfl
    · constructor
      · intro h0
        rw [List.indexOf_cons] at h0
        have : (x == a) = false := beq_eq_false_iff_ne.mpr hx
        rw [this] at h0
        exact absurd h0 (by simp)
      · intro h0
        have : x = a := Option.some.inj h0
        exact absurd this hx

/-- The characterization of `detect_headings` proved below: a line is a
paragraph exactly when its height is below `1.4 ×` the median; the
candidate value at the head of the vertical order (the candidate with the
smallest top, first value-equal occurrence) gets `H1` inside the top 30%
of the page and `H2` otherwise; every other candidate value gets `H3`;
returned in original document order with the line texts. -/
def detectHeadingsSpec (words : List Word) (page_h : ℤ) : List (String × String) :=
  (_group_lines words).map (fun ln =>
    (if (ln.height : ℚ) < fmul (mkRat 7 5) (lineHeightsMedian (_group_lines words)) then "P"
     else if (sortedCandidates (_group_lines words)).head? = some ln then
       (if (ln.top : ℚ) < fmul (mkRat 3 10) (page_h : ℚ) then "H1" else "H2")
     else "H3", ln.text))

theorem headingTag_eq (lines : List LineInfo) (page_h : ℤ) (ln : LineInfo) (hln : ln ∈ lines) :
    headingTag (sortedCandidates lines) page_h ln =
      (if (ln.height : ℚ) < fmul (mkRat 7 5) (lineHeightsMedian lines) then "P"
       else if (sortedCandidates lines).head? = some ln then
         (if (ln.top : ℚ) < fmul (mkRat 3 10) (page_h : ℚ) then "H1" else "H2")
       else "H3") := by
  by_cases hc : fmul (mkRat 7 5) (lineHeightsMedian lines) ≤ (ln.height : ℚ)
  · rw [if_neg (not_lt.mpr hc)]
    have hcand : ln ∈ headingCandidates lines := by
      unfold headingCandidates
      rw [List.mem_filter]
      exact ⟨hln, by simpa using hc⟩
    have hmem : ln ∈ sortedCandidates lines := by
      unfold sortedCandidates
      exact (List.mem_insertionSort topLe).mpr hcand
    unfold headingTag
    rw [if_pos hmem]
    by_cases hh : (sortedCandidates lines).head? = some ln
    · have hidx : List.indexOf ln (sortedCandidates lines) = 0 :=
        (indexOf_eq_zero_iff_head _ ln hmem).mpr hh
      rw [if_pos hh]
      by_cases ht : (ln.top : ℚ) < fmul (mkRat 3 10) (page_h : ℚ)
      · rw [if_pos ⟨ht, hidx⟩, if_pos ht]
      · rw [if_neg (fun hb => ht hb.1), if_pos hidx, if_neg ht]
    · have hidx : ¬ List.indexOf ln (sortedCandidates lines) = 0 :=
        fun h0 => hh ((indexOf_eq_zero_iff_head _ ln hmem).mp h0)
      rw [if_neg hh, if_neg (fun hb => hidx hb.2), if_neg hidx]
  · rw [if_pos (not_le.mp hc)]
    have hcand : ln ∉ headingCandidates lines := by
      unfold headingCandidates
      rw [List.mem_filter]
      rintro ⟨_, hpred⟩
      exact hc (by simpa using hpred)
    have hmem : ln ∉ sortedCandidates lines := by
      unfold sortedCandidates
      rw [List.mem_insertionSort]
      exact hcand
    unfold headingTag
    rw [if_neg hmem]

/-- C9 (amended): `detect_headings` equals the claimed classification — a
line is a heading candidate iff its height is at least `1.4 ×` the median
line height, the vertically-first candidate (by value; with duplicate
equal lines each equal occurrence is treated as rank 0, cf. C7) is `H1`
when its top is above the 30% band and `H2` otherwise, every other
candidate is `H3`, non-candidates are `P` — in the original document
order; and the head of the vertical order is a candidate of minimal top
coordinate. -/
theorem detect_headings_eq_spec (words : List Word) (page_h : ℤ) :
    detect_headings words page_h = detectHeadingsSpec words page_h ∧
      ∀ first : LineInfo, (sortedCandidates (_group_lines words)).head? = some first →
        first ∈ headingCandidates (_group_lines words) ∧
          ∀ c ∈ headingCandidates (_group_lines words), first.top ≤ c.top := by
  constructor
  · unfold detect_headings detectHeadingsSpec
    by_cases he : (_group_lines words).isEmpty
    · rw [if_pos he]
      rw [List.isEmpty_iff.mp he]
      rfl
    · rw [if_neg he]
      apply List.map_congr_left
      intro ln hln
      rw [headingTag_eq (_group_lines words) page_h ln hln]
  · intro first hh
    cases hs : sortedCandidates (_group_lines words) with
    | nil => rw [hs] at hh; exact absurd hh (by simp)
    | cons x t =>
      rw [hs] at hh
      have hx : x = first := Option.some.inj hh
      have hmax := insertionSort_head_max topLe (headingCandidates (_group_lines words)) x t
        (by rw [← hs]; rfl)
      rw [hx] at hmax
      refine ⟨hmax.1, fun c hc => ?_⟩
      rcases hmax.2 c hc with h1 | h1
      · rw [h1]
      · exact h1

/-- Words producing four distinct lines: one tall title line and three
body lines. -/
def wordsC9 : List Word :=
  [⟨"Title", 0, 0, 100, 30, some 90, 1⟩,
   ⟨"body", 0, 50, 100, 10, some 80, 2⟩,
   ⟨"more", 0, 60, 100, 10, some 80, 3⟩,
   ⟨"text", 0, 70, 100, 10, some 80, 4⟩]

/-- The tall line produced by `wordsC9`. -/
def lineTitle : LineInfo := ⟨"Title", 0, 0, 100, 30, 90⟩

/-- C9 witness: the amended characterization applied to a concrete page of
height 200 — the height-30 line among height-10 lines (median 10) is the
only candidate, its top 0 is inside the top 30% band, and the output is
`H1` followed by paragraphs in document order. -/
theorem detect_headings_eq_spec_witness :
    detect_headings wordsC9 200 = detectHeadingsSpec wordsC9 200 ∧
      (sortedCandidates (_group_lines wordsC9)).head? = some lineTitle ∧
      (lineTitle ∈ headingCandidates (_group_lines wordsC9) ∧
        ∀ c ∈ headingCandidates (_group_lines wordsC9), lineTitle.top ≤ c.top) ∧
      detect_headings wordsC9 200 =
        [("H1", "Title"), ("P", "body"), ("P", "more"), ("P", "text")] :=
  ⟨(detect_headings_eq_spec wordsC9 200).1, by decide,
    (detect_headings_eq_spec wordsC9 200).2 lineTitle (by decide), by decide⟩

/-- Words whose two title lines have identical geometry and text (distinct
engine line numbers), plus three body lines — the produced `LineInfo`
values of the two title lines are equal. -/
def wordsC9dup : List Word :=
  [⟨"T", 0, 0, 50, 30, some 90, 1⟩,
   ⟨"T", 0, 0, 50, 30, some 90, 2⟩,
   ⟨"a", 0, 40, 50, 10, some 80, 3⟩,
   ⟨"b", 0, 50, 50, 10, some 80, 4⟩,
   ⟨"c", 0, 60, 50, 10, some 80, 5⟩]

/-- C9 counterexample: with two value-equal candidate lines, **both** are
tagged `H1` (each finds itself at `candidates.index(...) = 0`), so the
claim that every candidate other than the vertically-first one is tagged
`H3` is false as stated. -/
theorem detect_headings_dup_rank_cex :
    detect_headings wordsC9dup 100 =
      [("H1", "T"), ("H1", "T"), ("P", "a"), ("P", "b"), ("P", "c")] := by
  decide

theorem headingTag_h1h2_head (sc : List LineInfo) (page_h : ℤ) (ln : LineInfo)
    (h : headingTag sc page_h ln = "H1" ∨ headingTag sc page_h ln = "H2") :
    sc.head? = some ln := by
  unfold headingTag at h
  by_cases hmem : ln ∈ sc
  · rw [if_pos hmem] at h
    by_cases h1 : (ln.top : ℚ) < fmul (mkRat 3 10) (page_h : ℚ) ∧ List.indexOf ln sc = 0
    · exact (indexOf_eq_zero_iff_head sc ln hmem).mp h1.2
    · rw [if_neg h1] at h
      by_cases h2 : List.indexOf ln sc = 0
      · exact (indexOf_eq_zero_iff_head sc ln hmem).mp h2
      · rw [if_neg h2] at h
        rcases h with h | h <;> exact absurd h (by decide)
  · rw [if_neg hmem] at h
    rcases h with h | h <;> exact absurd h (by decide)

/-- C7 (amended): provided the retained `LineInfo` records of a page are
pairwise distinct, the tagged sequence contains at most one line tagged
`H1` or `H2` (only a line equal to the head of the vertical candidate
order can receive those tags). With duplicate equal records the bound
fails (see the counterexample): `candidates.index` finds the first
value-equal occurrence, so every duplicate of the rank-0 candidate is
tagged like rank 0. -/
theorem detect_headings_at_most_one_h1h2 (words : List Word) (page_h : ℤ)
    (hnd : (_group_lines words).Nodup) :
    (detect_headings words page_h).countP
      (fun t => decide (t.1 = "H1" ∨ t.1 = "H2")) ≤ 1 := by
  unfold detect_headings
  by_cases he : (_group_lines words).isEmpty
  · rw [if_pos he]
    simp
  · rw [if_neg he]
    rw [List.countP_map]
    cases hh : (sortedCandidates (_group_lines words)).head? with
    | none =>
      have hz : (_group_lines words).countP
          ((fun t : String × String => decide (t.1 = "H1" ∨ t.1 = "H2")) ∘
            (fun ln => (headingTag (sortedCandidates (_group_lines words)) page_h ln, ln.text)))
          = 0 := by
        rw [List.countP_eq_zero]
        intro ln _
        simp only [Function.comp_apply, decide_eq_true_eq]
        intro hp
        have hhead := headingTag_h1h2_head _ page_h ln hp
        rw [hh] at hhead
        exact absurd hhead (by simp)
      rw [hz]
      exact Nat.zero_le 1
    | some first =>
      have hle : (_group_lines words).countP
          ((fun t : String × String => decide (t.1 = "H1" ∨ t.1 = "H2")) ∘
            (fun ln => (headingTag (sortedCandidates (_group_lines words)) page_h ln, ln.text)))
          ≤ (_group_lines words).countP (fun ln => ln == first) := by
        apply List.countP_mono_left
        intro ln _ hp
        simp only [Function.comp_apply, decide_eq_true_eq] at hp
        have hhead := headingTag_h1h2_head _ page_h ln hp
        rw [hh] at hhead
        have : first = ln := Option.some.inj hhead
        exact beq_iff_eq.mpr this.symm
      apply Nat.le_trans hle
      have hcount : (_group_lines words).countP (fun ln => ln == first)
          = (_group_lines words).count first := rfl
      rw [hcount]
      exact List.nodup_iff_count_le_one.mp hnd first

/-- Words producing two value-equal tall heading lines near the top and
three distinct body lines. -/
def wordsC7 : List Word :=
  [⟨"Heading", 0, 5, 80, 30, some 90, 1⟩,
   ⟨"Heading", 0, 5, 80, 30, some 90, 2⟩,
   ⟨"x", 0, 50, 80, 10, some 70, 3⟩,
   ⟨"y", 0, 60, 80, 10, some 70, 4⟩,
   ⟨"z", 0, 70, 80, 10, some 70, 5⟩]

/-- C7 counterexample: a page whose tagged sequence contains **two** `H1`
lines — the at-most-one-`H1`/`H2` invariant is false as stated, because
both value-equal candidate lines index to rank 0. -/
theorem detect_headings_two_h1_cex :
    (detect_headings wordsC7 200).countP (fun t => decide (t.1 = "H1" ∨ t.1 = "H2")) = 2 := by
  decide

/-- C7 witness: on a page with pairwise-distinct retained lines, the bound
holds. -/
theorem detect_headings_at_most_one_h1h2_witness :
    (_group_lines wordsC9).Nodup ∧
      (detect_headings wordsC9 200).countP (fun t => decide (t.1 = "H1" ∨ t.1 = "H2")) ≤ 1 :=
  ⟨by decide, detect_headings_at_most_one_h1h2 wordsC9 200 (by decide)⟩
